import Mathlib

/-!
Verification of the 2D rectangular bin-packing engine of
mark1bean/bin-packing-for-illustrator-and-indesign.

The shallow embedding below translates the JavaScript sources:
  * `src/Packer.js` — the guillotine free-rectangle packer (heap of free
    regions, first-fit search, split-and-merge heap adjustment);
  * the Block model and `Block.prototype.rotate` (packer-blocks file);
  * the attempt / scoring loop and orchestrator of the Illustrator script
    (`packItemsIllustrator`, `getMaxAttemptCount`, `sortBlocks` callers).

JavaScript numbers are modelled as rationals (the algorithm only adds,
subtracts, multiplies, divides and compares).  Mutation of block and heap
objects is modelled by explicit state passing.
-/

set_option maxHeartbeats 1000000

namespace BinPacking

/-- Axis-aligned rectangle in corner-pair form, as used for the Packer's
heap blocks and for placed blocks (src/Packer.js). -/
structure Rect where
  x0 : ℚ
  y0 : ℚ
  x1 : ℚ
  y1 : ℚ
deriving DecidableEq, Repr

/-- `Packer.prototype.intersect` (src/Packer.js lines 17-32): the
intersecting block of two blocks, or `none` when they do not meet
(touching edges count as intersecting, via the inclusive comparisons). -/
def intersect (block0 block1 : Rect) : Option Rect :=
  if max block0.x0 block1.x0 ≤ min block0.x1 block1.x1 ∧
      max block0.y0 block1.y0 ≤ min block0.y1 block1.y1 then
    some ⟨max block0.x0 block1.x0, max block0.y0 block1.y0,
      min block0.x1 block1.x1, min block0.y1 block1.y1⟩
  else none

/-- `Packer.prototype.chunkContains` (src/Packer.js lines 34-39):
whether `heapBlock0` totally encompasses `heapBlock1`. -/
def chunkContains (heapBlock0 heapBlock1 : Rect) : Prop :=
  heapBlock0.x0 ≤ heapBlock1.x0 ∧ heapBlock0.y0 ≤ heapBlock1.y0 ∧
    heapBlock1.x1 ≤ heapBlock0.x1 ∧ heapBlock1.y1 ≤ heapBlock0.y1

instance (a b : Rect) : Decidable (chunkContains a b) := by
  unfold chunkContains
  exact inferInstance

/-- First statement of `Packer.prototype.expand` (src/Packer.js lines
46-49): when `heapBlock1`'s x-extent lies inside `heapBlock0`'s and the two
touch vertically, stretch `heapBlock1`'s y-extent over both. -/
def expandY (heapBlock0 heapBlock1 : Rect) : Rect :=
  if heapBlock0.x0 ≤ heapBlock1.x0 ∧ heapBlock1.x1 ≤ heapBlock0.x1 ∧
      heapBlock1.y0 ≤ heapBlock0.y1 then
    { heapBlock1 with y0 := min heapBlock0.y0 heapBlock1.y0,
                      y1 := max heapBlock0.y1 heapBlock1.y1 }
  else heapBlock1

/-- Second statement of `Packer.prototype.expand` (src/Packer.js lines
51-54), which sees the mutation made by the first statement. -/
def expandX (heapBlock0 heapBlock1 : Rect) : Rect :=
  if heapBlock0.y0 ≤ heapBlock1.y0 ∧ heapBlock1.y1 ≤ heapBlock0.y1 ∧
      heapBlock1.x0 ≤ heapBlock0.x1 then
    { heapBlock1 with x0 := min heapBlock0.x0 heapBlock1.x0,
                      x1 := max heapBlock0.x1 heapBlock1.x1 }
  else heapBlock1

/-- `Packer.prototype.expand` (src/Packer.js lines 41-55): returns the
mutated `heapBlock1` (the JS mutates its second argument in place). -/
def expand (heapBlock0 heapBlock1 : Rect) : Rect :=
  expandX heapBlock0 (expandY heapBlock0 heapBlock1)

/-- Effective semantics of `Packer.prototype.unionMax` (src/Packer.js lines
57-81) on two non-null heap entries: the two `heapBlockN = null` assignments
inside it only rebind local parameters and have no effect on the heap, so
the only observable effect is the double `expand` in the final branch.
Returns the mutated pair (heap slot i, heap slot j). -/
def unionMaxPair (heapBlock0 heapBlock1 : Rect) : Rect × Rect :=
  match intersect heapBlock0 heapBlock1 with
  | none => (heapBlock0, heapBlock1)
  | some _ =>
    if chunkContains heapBlock0 heapBlock1 then (heapBlock0, heapBlock1)
    else if chunkContains heapBlock1 heapBlock0 then (heapBlock0, heapBlock1)
    else
      (expand (expand heapBlock0 heapBlock1) heapBlock0,
        expand heapBlock0 heapBlock1)

/-- Body of the double loop of `Packer.prototype.unionAll` (src/Packer.js
lines 89-101): run `unionMax` on slots `i`, `j`, then null out a slot that
is contained in the other.  Nulled slots are `none`. -/
def unionAllBody (heap : List (Option Rect)) (i j : ℕ) : List (Option Rect) :=
  if i = j then heap
  else
    match heap.get? i, heap.get? j with
    | some (some a), some (some b) =>
      if chunkContains (unionMaxPair a b).2 (unionMaxPair a b).1 then
        ((heap.set i (some (unionMaxPair a b).1)).set j
          (some (unionMaxPair a b).2)).set i none
      else if chunkContains (unionMaxPair a b).1 (unionMaxPair a b).2 then
        ((heap.set i (some (unionMaxPair a b).1)).set j
          (some (unionMaxPair a b).2)).set j none
      else
        (heap.set i (some (unionMaxPair a b).1)).set j
          (some (unionMaxPair a b).2)
    | _, _ => heap

/-- `Packer.prototype.unionAll` (src/Packer.js lines 83-111): the double
index loop over the heap followed by the compaction that drops the nulled
entries. -/
def unionAll (heap : List (Option Rect)) : List Rect :=
  let n := heap.length
  let heap := (List.range n).foldl
    (fun h i => (List.range n).foldl (fun h2 j => unionAllBody h2 i j) h) heap
  heap.filterMap id

/-- The up-to-four residual blocks pushed by `Packer.prototype.adjustHeap`
(src/Packer.js lines 205-243) when `overlap` is the intersection of
`heapBlock` with the placed block: top, right, bottom, left, in push order,
each omitted when its guard fails. -/
def splitHeapBlock (heapBlock overlap : Rect) : List Rect :=
  (if overlap.y1 ≠ heapBlock.y1 then
    [⟨heapBlock.x0, overlap.y1, heapBlock.x1, heapBlock.y1⟩] else [])
  ++ (if overlap.x1 ≠ heapBlock.x1 then
    [⟨overlap.x1, heapBlock.y0, heapBlock.x1, heapBlock.y1⟩] else [])
  ++ (if heapBlock.y0 ≠ overlap.y0 then
    [⟨heapBlock.x0, heapBlock.y0, heapBlock.x1, overlap.y0⟩] else [])
  ++ (if heapBlock.x0 ≠ overlap.x0 then
    [⟨heapBlock.x0, heapBlock.y0, overlap.x0, heapBlock.y1⟩] else [])

/-- `Packer.prototype.adjustHeap` (src/Packer.js lines 192-250): every heap
entry intersecting the placed block's rectangle is nulled in place and its
residual pieces are pushed at the end; then `unionAll` runs. -/
def adjustHeap (heap : List Rect) (blk : Rect) : List Rect :=
  let marked : List (Option Rect) := heap.map (fun hb =>
    if (intersect hb blk).isSome then none else some hb)
  let residuals : List Rect := heap.flatMap (fun hb =>
    match intersect hb blk with
    | some overlap => splitHeapBlock hb overlap
    | none => [])
  unionAll (marked ++ residuals.map some)

/-- The fit test of `Packer.prototype.findInHeap` (src/Packer.js lines
176-180): the heap block's width and height both accommodate `w`, `h`. -/
def fitsIn (w h : ℚ) (heapBlock : Rect) : Bool :=
  decide (w ≤ heapBlock.x1 - heapBlock.x0 ∧ h ≤ heapBlock.y1 - heapBlock.y0)

/-- The search of `Packer.prototype.findInHeap` (src/Packer.js lines
170-190): the first heap block, in heap order, that fits. -/
def findInHeap (heap : List Rect) (w h : ℚ) : Option Rect :=
  heap.find? (fitsIn w h)

/-- The two dimension/offset sets of a Block
(packer-blocks source, `this.dimensions` / `this.rotatedDimensions`). -/
structure Dims where
  w : ℚ
  h : ℚ
  dx : ℚ
  dy : ℚ
deriving DecidableEq, Repr

/-- A packable item, per the `Block` constructor of the packer-blocks
source (lines 33-84).  The placement fields `x0 y0 x1 y1` are undefined in
JS until `findInHeap` sets them; they are modelled as rationals whose value
is irrelevant until `packed` is true.  `binIndex` is `none` until
`Packer.prototype.fit` assigns it. -/
structure Block where
  index : ℕ
  w : ℚ
  h : ℚ
  dx : ℚ
  dy : ℚ
  dimensions : Dims
  rotatedDimensions : Dims
  isRotated : Bool
  packed : Bool
  binIndex : Option ℕ
  x0 : ℚ
  y0 : ℚ
  x1 : ℚ
  y1 : ℚ
deriving DecidableEq, Repr

/-- `Block.prototype.rotate` (packer-blocks source lines 87-97): no-op on
squares, otherwise toggle `isRotated` and load the now-active dimension
set. -/
def Block.rotate (b : Block) : Block :=
  if b.w = b.h then b
  else
    let r := !b.isRotated
    let d := if r then b.rotatedDimensions else b.dimensions
    { b with isRotated := r, w := d.w, h := d.h, dx := d.dx, dy := d.dy }

/-- The `Block` constructor (packer-blocks source lines 33-84), reduced to
its geometric content: `boundsW`, `boundsH` are the item's bounds extents,
`padding` is baked into `w`/`h` once; `rotatedDimensions` swaps the extents
with the offset correction `(-dy, rdy)` where `rdy` comes from the item's
visible bounds. -/
def mkBlock (index : ℕ) (boundsW boundsH padding dx dy rdy : ℚ)
    (forceRotate : Bool) : Block :=
  let w := boundsW + padding
  let h := boundsH + padding
  let b : Block :=
    { index := index, w := w, h := h, dx := dx, dy := dy,
      dimensions := ⟨w, h, dx, dy⟩,
      rotatedDimensions := ⟨h, w, -dy, rdy⟩,
      isRotated := false, packed := false, binIndex := none,
      x0 := 0, y0 := 0, x1 := 0, y1 := 0 }
  if forceRotate then b.rotate else b

/-- The placement made by `Packer.prototype.findInHeap` on success
(src/Packer.js lines 181-185): top-left corner of the found heap block. -/
def place (block : Block) (heapBlock : Rect) : Block :=
  { block with x0 := heapBlock.x0, y0 := heapBlock.y0,
               x1 := heapBlock.x0 + block.w, y1 := heapBlock.y0 + block.h,
               packed := true }

/-- The placement rectangle of a block, read from its `x0 y0 x1 y1` fields
as `Packer.prototype.adjustHeap` does. -/
def Block.rect (b : Block) : Rect :=
  ⟨b.x0, b.y0, b.x1, b.y1⟩

/-- One iteration of the block loop of `Packer.prototype.fit`
(src/Packer.js lines 131-147): try to place the block; if that fails and
rotation is allowed, rotate it (a lasting mutation) and try once more.
Returns the updated heap and the updated block. -/
def fitOne (allow90 : Bool) (heap : List Rect) (block : Block) :
    List Rect × Block :=
  match findInHeap heap block.w block.h with
  | some heapBlock =>
    (adjustHeap heap (place block heapBlock).rect, place block heapBlock)
  | none =>
    if allow90 then
      match findInHeap heap (Block.rotate block).w (Block.rotate block).h with
      | some heapBlock =>
        (adjustHeap heap (place (Block.rotate block) heapBlock).rect,
          place (Block.rotate block) heapBlock)
      | none => (heap, Block.rotate block)
    else (heap, block)

/-- Mutable state of one `Packer.prototype.fit` call. -/
structure FitState where
  heap : List Rect
  packedBlocks : List Block
  remainingBlocks : List Block
  area : ℚ
deriving DecidableEq, Repr

/-- The tail of each iteration of `Packer.prototype.fit` (src/Packer.js
lines 149-159): a packed block gets the bin index and joins
`packedBlocks` (adding its area), otherwise it joins `remainingBlocks`. -/
def fitStep (allow90 : Bool) (binIndex : ℕ) (st : FitState) (block : Block) :
    FitState :=
  if (fitOne allow90 st.heap block).2.packed then
    { st with heap := (fitOne allow90 st.heap block).1,
              packedBlocks := st.packedBlocks ++
                [{ (fitOne allow90 st.heap block).2 with
                    binIndex := some binIndex }],
              area := st.area + (fitOne allow90 st.heap block).2.w *
                (fitOne allow90 st.heap block).2.h }
  else
    { st with heap := (fitOne allow90 st.heap block).1,
              remainingBlocks := st.remainingBlocks ++
                [(fitOne allow90 st.heap block).2] }

/-- Result record of `Packer.prototype.fit` (src/Packer.js lines 162-167). -/
structure FitResult where
  count : ℕ
  area : ℚ
  packedBlocks : List Block
  remainingBlocks : List Block
deriving DecidableEq, Repr

/-- Initial state of a `Packer.prototype.fit` call (src/Packer.js lines
118-129): the heap is the single full-bin region `[0, w] × [0, h]`. -/
def fitInit (w h : ℚ) : FitState :=
  { heap := [⟨0, 0, w, h⟩], packedBlocks := [], remainingBlocks := [],
    area := 0 }

/-- `Packer.prototype.fit` (src/Packer.js lines 113-168): reset the heap to
the full-bin region, then process every block in the given order. -/
def Packer.fit (w h : ℚ) (allow90 : Bool) (blocks : List Block)
    (binIndex : ℕ) : FitResult :=
  let st := blocks.foldl (fitStep allow90 binIndex) (fitInit w h)
  { count := st.packedBlocks.length, area := st.area,
    packedBlocks := st.packedBlocks, remainingBlocks := st.remainingBlocks }

/-- Mutable state of one packing attempt, per the `Attempt` constructor of
the packer-blocks source (lines 10-23): `binCount` is initialised to the
number of bins and overwritten to `i + 1` for each processed bin. -/
structure AttemptState where
  area : ℚ
  binCount : ℕ
  packedBlocks : List Block
  remainingBlocks : List Block
  score : ℚ
deriving DecidableEq, Repr

/-- The `binsLoop` of `packItemsIllustrator` (main source lines 267-298):
process bins in order, feeding each bin the previous bin's leftovers,
accumulating area, packed blocks and score, and breaking as soon as no
blocks remain.  Division is rational division (total, with `x / 0 = 0`);
the JS would produce `Infinity` for a bin that packs nothing, and both
sides of every equation proved below use the same convention.
`scoreFactor` is the per-bin factor of `packItemsIllustrator` lines
284-286. -/
def scoreFactor (preferCount : Bool) (totalItemCount : ℕ)
    (totalItemArea : ℚ) (result : FitResult) : ℚ :=
  if preferCount then (totalItemCount : ℚ) / (result.count : ℚ)
  else totalItemArea / result.area

/-- The `binsLoop` body proper; see the comment on `scoreFactor` above. -/
def attemptBinsLoop (allow90 preferCount : Bool) (totalItemCount : ℕ)
    (totalItemArea : ℚ) :
    List (ℚ × ℚ) → ℕ → AttemptState → AttemptState
  | [], _, st => st
  | (w, h) :: rest, i, st =>
    let result := Packer.fit w h allow90 st.remainingBlocks i
    let st2 : AttemptState :=
      { area := st.area + result.area,
        binCount := i + 1,
        packedBlocks := st.packedBlocks ++ result.packedBlocks,
        remainingBlocks := result.remainingBlocks,
        score := st.score + ((w * h) / result.area) *
          scoreFactor preferCount totalItemCount totalItemArea result }
    if st2.remainingBlocks.length = 0 then st2
    else attemptBinsLoop allow90 preferCount totalItemCount totalItemArea rest (i + 1) st2

/-- One full attempt of `packItemsIllustrator` (main source lines 243-302):
run the bins loop on the attempt's (already sorted) blocks, then apply the
end-of-attempt score adjustments
`score += (bins.length - binCount) * 100` and
`score -= remainingBlocks.length * 100`. -/
def attemptRun (bins : List (ℚ × ℚ)) (allow90 preferCount : Bool)
    (totalItemCount : ℕ) (totalItemArea : ℚ) (blocks : List Block) :
    AttemptState :=
  let st := attemptBinsLoop allow90 preferCount totalItemCount totalItemArea
    bins 0
    { area := 0, binCount := bins.length, packedBlocks := [],
      remainingBlocks := blocks, score := 0 }
  { st with score := st.score + ((bins.length : ℚ) - (st.binCount : ℚ)) * 100
      - (st.remainingBlocks.length : ℚ) * 100 }

/-- The sequence of bins actually processed by the bins loop, with each
bin's `Packer.fit` result: the loop processes a bin exactly when blocks
were still remaining when it reached it. -/
def binsTrace (allow90 : Bool) :
    List (ℚ × ℚ) → ℕ → List Block → List (ℚ × ℚ × FitResult)
  | [], _, _ => []
  | (w, h) :: rest, i, blocks =>
    let result := Packer.fit w h allow90 blocks i
    if result.remainingBlocks.length = 0 then [(w, h, result)]
    else (w, h, result) :: binsTrace allow90 rest (i + 1) result.remainingBlocks

/-- The per-bin score contribution as the spec states it:
`(binWidth * binHeight / packedAreaInBin) * scoreFactor`, with
`scoreFactor = totalItemCount / packedCountInBin` when optimising for item
count and `totalItemArea / packedAreaInBin` when optimising for area.
This definition follows the spec's words and is compared against the
source-derived `attemptRun`. -/
def specBinScore (preferCount : Bool) (totalItemCount : ℕ)
    (totalItemArea : ℚ) (entry : ℚ × ℚ × FitResult) : ℚ :=
  ((entry.1 * entry.2.1) / entry.2.2.area) *
    (if preferCount then (totalItemCount : ℚ) / (entry.2.2.count : ℚ)
     else totalItemArea / entry.2.2.area)

/-- Orchestrator configuration (the settings consumed by the attempts loop
of `packItemsIllustrator`). -/
structure OrchConfig where
  bins : List (ℚ × ℚ)
  allow90 : Bool
  preferCount : Bool
  tryHarder : Bool
  doNotSort : Bool
deriving DecidableEq, Repr

/-- The attempt executed at index `a` by the attempts loop: a fresh block
list is built for every attempt, sorted by `sortBlocks` using the attempt
index as the sort type unless sorting is disabled.  `sorter` abstracts
`sortBlocks` (whose index-five-and-up branch is a random shuffle). -/
def attemptAt (cfg : OrchConfig) (sorter : ℕ → List Block → List Block)
    (mkBlocks : List Block) (tic : ℕ) (tia : ℚ) (a : ℕ) : AttemptState :=
  attemptRun cfg.bins cfg.allow90 cfg.preferCount tic tia
    (if cfg.doNotSort then mkBlocks else sorter a mkBlocks)

/-- The best-attempt update of `packItemsIllustrator` (main source lines
304-310): keep the new attempt only on a strictly greater score (or when
there is no best attempt yet). -/
def bestUpd (prev : Option AttemptState) (cur : AttemptState) : AttemptState :=
  match prev with
  | none => cur
  | some p => if p.score < cur.score then cur else p

/-- The best attempt after completing attempts `0 .. a`. -/
def bestAfter (cfg : OrchConfig) (sorter : ℕ → List Block → List Block)
    (mkBlocks : List Block) (tic : ℕ) (tia : ℚ) : ℕ → AttemptState
  | 0 => attemptAt cfg sorter mkBlocks tic tia 0
  | a + 1 => bestUpd (some (bestAfter cfg sorter mkBlocks tic tia a))
      (attemptAt cfg sorter mkBlocks tic tia (a + 1))

/-- The best attempt on entry to iteration `a` of the attempts loop
(`undefined`, i.e. `none`, on entry to iteration 0). -/
def bestState (cfg : OrchConfig) (sorter : ℕ → List Block → List Block)
    (mkBlocks : List Block) (tic : ℕ) (tia : ℚ) : ℕ → Option AttemptState
  | 0 => none
  | a + 1 => some (bestAfter cfg sorter mkBlocks tic tia a)

/-- The attempts loop of `packItemsIllustrator` (main source lines
237-331), with the break conditions in source order: `doNotSort` breaks
after one attempt; otherwise the loop breaks after an attempt when
`tryHarder` is off, the attempt index exceeds 4 and the best attempt has
no remaining blocks.  Returns the executed attempt indices in order and
the final best attempt (`none` when the loop ran zero times). -/
def attemptsLoop (cfg : OrchConfig) (sorter : ℕ → List Block → List Block)
    (mkBlocks : List Block) (tic : ℕ) (tia : ℚ) :
    ℕ → ℕ → Option AttemptState → List ℕ × Option AttemptState
  | 0, _, best => ([], best)
  | fuel + 1, a, best =>
    let attempt := attemptAt cfg sorter mkBlocks tic tia a
    let best2 := bestUpd best attempt
    if cfg.doNotSort then ([a], some best2)
    else if cfg.tryHarder = false ∧ 4 < a ∧ best2.remainingBlocks.length = 0 then
      ([a], some best2)
    else
      let rest := attemptsLoop cfg sorter mkBlocks tic tia fuel (a + 1) (some best2)
      (a :: rest.1, rest.2)

/-- Floor of the base-2 logarithm, by structural recursion on a fuel that
bounds the number of halvings (`log2Floor n n` is exact for `n ≥ 1`). -/
def log2Floor : ℕ → ℕ → ℕ
  | 0, _ => 0
  | fuel + 1, n => if 2 ≤ n then log2Floor fuel (n / 2) + 1 else 0

/-- `getMaxAttemptCount` (main source lines 588-590) as a loop-iteration
budget.  The JS computes `min(200, 4 + floor(log(n) / log(2) * 5))` with
IEEE doubles: for `n = 0`, `Math.log(0)` is `-Infinity`, the whole budget
is `-Infinity`, and the attempts loop `a < maxAttemptCount` runs zero
times — modelled as a budget of 0.  For `n ≥ 1` the exact-real value of
`floor(log2(n) * 5)` is `floor(log2(n ^ 5))`. -/
def getMaxAttemptFuel (itemCount : ℕ) : ℕ :=
  if itemCount = 0 then 0
  else min 200 (4 + log2Floor (itemCount ^ 5) (itemCount ^ 5))

/-- What the packing run hands back for the winning attempt: the blocks it
positions (with bin index, offset and rotation), the unplaced blocks, and
the indices of the attempts that were executed. -/
structure PackResult where
  packedBlocks : List Block
  remainingBlocks : List Block
  attemptIndices : List ℕ
deriving DecidableEq, Repr

/-- The packing phase of `packItemsIllustrator` (main source lines
160-376) for a caller-supplied block list: derive the attempt budget
(`settings.maxAttemptCount || getMaxAttemptCount(items.length)`, where a
budget of 0 is falsy and falls back to the derived one), run the attempts
loop, then read `bestAttempt.packedBlocks` (line 339).  When zero attempts
ran, `bestAttempt` is still `undefined` and that property access throws a
TypeError, modelled as `Except.error`. -/
def packItems (cfg : OrchConfig) (sorter : ℕ → List Block → List Block)
    (maxAttemptCount : Option ℕ) (mkBlocks : List Block) :
    Except String PackResult :=
  let totalItemCount := mkBlocks.length
  let totalItemArea := (mkBlocks.map (fun b => b.w * b.h)).sum
  let fuel : ℕ :=
    match maxAttemptCount with
    | some k => if k = 0 then getMaxAttemptFuel totalItemCount else k
    | none => getMaxAttemptFuel totalItemCount
  let out := attemptsLoop cfg sorter mkBlocks totalItemCount totalItemArea fuel 0 none
  match out.2 with
  | none => Except.error "TypeError: bestAttempt is undefined"
  | some best => Except.ok
      { packedBlocks := best.packedBlocks,
        remainingBlocks := best.remainingBlocks,
        attemptIndices := out.1 }

/-- Two rectangles are area-disjoint: on some axis the overlap of their
extents has length at most zero. -/
def Disj (r q : Rect) : Prop :=
  min r.x1 q.x1 ≤ max r.x0 q.x0 ∨ min r.y1 q.y1 ≤ max r.y0 q.y0

/-- `r` lies inside `s`. -/
def SubRect (r s : Rect) : Prop :=
  s.x0 ≤ r.x0 ∧ s.y0 ≤ r.y0 ∧ r.x1 ≤ s.x1 ∧ r.y1 ≤ s.y1

/-- The area of the intersection of two rectangles (zero when they do not
overlap). -/
def interArea (r q : Rect) : ℚ :=
  max 0 (min r.x1 q.x1 - max r.x0 q.x0) * max 0 (min r.y1 q.y1 - max r.y0 q.y0)

/-- The heap invariant carried through one `fit` call: a heap block is a
valid rectangle, lies inside the bin, and is area-disjoint from every
rectangle in `qs` (the placement rectangles of the blocks packed so
far). -/
def GoodR (bin : Rect) (qs : List Rect) (r : Rect) : Prop :=
  (r.x0 ≤ r.x1 ∧ r.y0 ≤ r.y1) ∧ SubRect r bin ∧ ∀ q ∈ qs, Disj r q

/-- The placement rectangle of a block as the claims state it: position
`(x0, y0)` plus the block's current width and height. -/
def placedRect (b : Block) : Rect :=
  ⟨b.x0, b.y0, b.x0 + b.w, b.y0 + b.h⟩

/-- Full invariant of the `fit` loop state: every heap block is good with
respect to the already packed blocks, the packed blocks are pairwise
area-disjoint, and each packed block lies inside the bin. -/
def StInv (bin : Rect) (st : FitState) : Prop :=
  (∀ r ∈ st.heap, GoodR bin (st.packedBlocks.map placedRect) r) ∧
    st.packedBlocks.Pairwise (fun p q => Disj (placedRect p) (placedRect q)) ∧
    ∀ p ∈ st.packedBlocks, SubRect (placedRect p) bin

/-- A block has positive dimensions, in both its dimension sets. -/
def Block.posDims (b : Block) : Prop :=
  0 < b.w ∧ 0 < b.h ∧ 0 < b.dimensions.w ∧ 0 < b.dimensions.h ∧
    0 < b.rotatedDimensions.w ∧ 0 < b.rotatedDimensions.h

/-- The state every `Block` constructor output satisfies: the rotated
dimension set swaps the extents of the normal one, and the block's live
`w h dx dy` fields agree with the dimension set selected by
`isRotated`. -/
def Block.wellFormed (b : Block) : Prop :=
  b.rotatedDimensions.w = b.dimensions.h ∧
    b.rotatedDimensions.h = b.dimensions.w ∧
    (if b.isRotated then
      b.w = b.rotatedDimensions.w ∧ b.h = b.rotatedDimensions.h ∧
        b.dx = b.rotatedDimensions.dx ∧ b.dy = b.rotatedDimensions.dy
    else
      b.w = b.dimensions.w ∧ b.h = b.dimensions.h ∧
        b.dx = b.dimensions.dx ∧ b.dy = b.dimensions.dy)

/-- A concrete test block of extent `w × h` with trivial offsets, in the
fresh state produced by the `Block` constructor. -/
def testBlock (index : ℕ) (w h : ℚ) : Block :=
  mkBlock index w h 0 0 0 0 false

/-- A two-region heap whose first region is too small for a 10 × 10 block,
used to exercise the first-fit search. -/
def heapW : List Rect :=
  [⟨0, 0, 5, 5⟩, ⟨0, 0, 30, 30⟩]

/-- The 10 × 10 block searched for in `heapW`. -/
def blockW : Block :=
  testBlock 0 10 10

/-- The first region of `heapW` that fits `blockW`. -/
def rectW : Rect :=
  ⟨0, 0, 30, 30⟩

instance (b : Block) : Decidable (Block.posDims b) := by
  unfold Block.posDims
  exact inferInstance

instance (b : Block) : Decidable (Block.wellFormed b) := by
  unfold Block.wellFormed
  exact inferInstance

/-! ## Generic helpers -/

lemma foldl_rec {α β : Type _} {P : α → Prop} {Q : β → Prop} (f : α → β → α)
    (hf : ∀ a b, P a → Q b → P (f a b)) :
    ∀ (l : List β), (∀ b ∈ l, Q b) → ∀ a, P a → P (l.foldl f a) := by
  intro l
  induction l with
  | nil => intro _ a ha; exact ha
  | cons b bs ih =>
    intro hq a ha
    exact ih (fun x hx => hq x (List.mem_cons_of_mem b hx))
      (f a b) (hf a b ha (hq b (List.mem_cons_self b bs)))

lemma find?_first {α : Type _} (p : α → Bool) :
    ∀ (l : List α) (a : α), l.find? p = some a →
      ∃ l1 l2, l = l1 ++ a :: l2 ∧ (∀ x ∈ l1, p x = false) ∧ p a = true := by
  intro l
  induction l with
  | nil => intro a ha; simp [List.find?] at ha
  | cons x xs ih =>
    intro a ha
    cases hx : p x with
    | true =>
      simp only [List.find?_cons, hx] at ha
      obtain rfl : x = a := Option.some_injective _ ha
      exact ⟨[], xs, rfl, by simp, hx⟩
    | false =>
      simp only [List.find?_cons, hx] at ha
      obtain ⟨l1, l2, rfl, h1, h2⟩ := ih a ha
      exact ⟨x :: l1, l2, rfl, by
        intro y hy
        rcases List.mem_cons.mp hy with rfl | hy
        · exact hx
        · exact h1 y hy, h2⟩

/-! ## Geometry lemmas -/

lemma subRect_refl (r : Rect) : SubRect r r :=
  ⟨le_refl _, le_refl _, le_refl _, le_refl _⟩

lemma subRect_trans {r s t : Rect} (h1 : SubRect r s) (h2 : SubRect s t) :
    SubRect r t := by
  obtain ⟨a1, a2, a3, a4⟩ := h1
  obtain ⟨b1, b2, b3, b4⟩ := h2
  exact ⟨le_trans b1 a1, le_trans b2 a2, le_trans a3 b3, le_trans a4 b4⟩

lemma disj_symm {r q : Rect} (h : Disj r q) : Disj q r := by
  unfold Disj at h ⊢
  rcases h with h | h
  · left
    rw [min_comm, max_comm]
    exact h
  · right
    rw [min_comm, max_comm]
    exact h

lemma subRect_disj {r s q : Rect} (hrs : SubRect r s) (h : Disj s q) :
    Disj r q := by
  obtain ⟨h1, h2, h3, h4⟩ := hrs
  unfold Disj at h ⊢
  rcases h with h | h
  · exact Or.inl (le_trans (min_le_min h3 le_rfl)
      (le_trans h (max_le_max h1 le_rfl)))
  · exact Or.inr (le_trans (min_le_min h4 le_rfl)
      (le_trans h (max_le_max h2 le_rfl)))

lemma not_disj_iff {r q : Rect} :
    ¬ Disj r q ↔
      max r.x0 q.x0 < min r.x1 q.x1 ∧ max r.y0 q.y0 < min r.y1 q.y1 := by
  unfold Disj
  push_neg
  rfl

lemma disj_interArea {r q : Rect} (h : Disj r q) : interArea r q = 0 := by
  unfold interArea
  rcases h with h | h
  · rw [max_eq_left (by linarith : min r.x1 q.x1 - max r.x0 q.x0 ≤ 0)]
    ring
  · rw [max_eq_left (by linarith : min r.y1 q.y1 - max r.y0 q.y0 ≤ 0)]
    ring

lemma intersect_some_iff {a b : Rect} :
    (intersect a b).isSome ↔
      max a.x0 b.x0 ≤ min a.x1 b.x1 ∧ max a.y0 b.y0 ≤ min a.y1 b.y1 := by
  unfold intersect
  by_cases hc : max a.x0 b.x0 ≤ min a.x1 b.x1 ∧ max a.y0 b.y0 ≤ min a.y1 b.y1
  · rw [if_pos hc]
    simpa using hc
  · rw [if_neg hc]
    simpa using hc

lemma intersect_eq_some {a b ov : Rect} (h : intersect a b = some ov) :
    ov = ⟨max a.x0 b.x0, max a.y0 b.y0, min a.x1 b.x1, min a.y1 b.y1⟩ ∧
      max a.x0 b.x0 ≤ min a.x1 b.x1 ∧ max a.y0 b.y0 ≤ min a.y1 b.y1 := by
  unfold intersect at h
  by_cases hc : max a.x0 b.x0 ≤ min a.x1 b.x1 ∧ max a.y0 b.y0 ≤ min a.y1 b.y1
  · rw [if_pos hc] at h
    exact ⟨(Option.some_injective _ h).symm, hc⟩
  · rw [if_neg hc] at h
    simp at h

lemma intersect_none_disj {a b : Rect} (h : intersect a b = none) : Disj a b := by
  unfold intersect at h
  by_cases hc : max a.x0 b.x0 ≤ min a.x1 b.x1 ∧ max a.y0 b.y0 ≤ min a.y1 b.y1
  · rw [if_pos hc] at h
    simp at h
  · unfold Disj
    push_neg at hc
    by_cases hx : max a.x0 b.x0 ≤ min a.x1 b.x1
    · exact Or.inr (le_of_lt (hc hx))
    · push_neg at hx
      exact Or.inl (le_of_lt hx)

lemma interval_union_strict {al ar bl br ql qr : ℚ}
    (haa : al ≤ ar) (_hbb : bl ≤ br) (hab : al ≤ br) (hba : bl ≤ ar)
    (h : max (min al bl) ql < min (max ar br) qr)
    (h1 : min ar qr ≤ max al ql) (h2 : min br qr ≤ max bl ql) : False := by
  rcases min_cases al bl with ⟨e1, f1⟩ | ⟨e1, f1⟩ <;>
    rcases max_cases ar br with ⟨e2, f2⟩ | ⟨e2, f2⟩ <;>
    rcases min_cases ar qr with ⟨e3, f3⟩ | ⟨e3, f3⟩ <;>
    rcases max_cases al ql with ⟨e4, f4⟩ | ⟨e4, f4⟩ <;>
    rcases min_cases br qr with ⟨e5, f5⟩ | ⟨e5, f5⟩ <;>
    rcases max_cases bl ql with ⟨e6, f6⟩ | ⟨e6, f6⟩ <;>
    simp only [e1, e2, e3, e4, e5, e6] at h h1 h2 <;>
    linarith

lemma disj_elim {r q : Rect} (h : Disj r q) :
    min r.x1 q.x1 ≤ max r.x0 q.x0 ∨ min r.y1 q.y1 ≤ max r.y0 q.y0 := h

lemma mergeY_good {bin : Rect} {qs : List Rect} {a b : Rect}
    (ha : GoodR bin qs a) (hb : GoodR bin qs b) (hy : a.y0 ≤ b.y1)
    (hc1 : a.x0 ≤ b.x0) (hc2 : b.x1 ≤ a.x1) (hc3 : b.y0 ≤ a.y1) :
    GoodR bin qs ⟨b.x0, min a.y0 b.y0, b.x1, max a.y1 b.y1⟩ := by
  obtain ⟨⟨hav1, hav2⟩, ⟨ha1, ha2, ha3, ha4⟩, haq⟩ := ha
  obtain ⟨⟨hbv1, hbv2⟩, ⟨hb1, hb2, hb3, hb4⟩, hbq⟩ := hb
  refine ⟨⟨hbv1, le_trans (min_le_left _ _) (le_trans hav2 (le_max_left _ _))⟩,
    ⟨hb1, le_min ha2 hb2, hb3, max_le ha4 hb4⟩, ?_⟩
  intro q hq
  by_contra hnd
  rw [not_disj_iff] at hnd
  obtain ⟨hx, hy2⟩ := hnd
  have hx2 : max b.x0 q.x0 < min b.x1 q.x1 := hx
  have hy3 : max (min a.y0 b.y0) q.y0 < min (max a.y1 b.y1) q.y1 := hy2
  have hax : max a.x0 q.x0 < min a.x1 q.x1 :=
    lt_of_le_of_lt (max_le_max hc1 le_rfl)
      (lt_of_lt_of_le hx2 (min_le_min hc2 le_rfl))
  have hay : min a.y1 q.y1 ≤ max a.y0 q.y0 := by
    rcases disj_elim (haq q hq) with hd | hd
    · exact absurd hax (not_lt_of_le hd)
    · exact hd
  have hby : min b.y1 q.y1 ≤ max b.y0 q.y0 := by
    rcases disj_elim (hbq q hq) with hd | hd
    · exact absurd hx2 (not_lt_of_le hd)
    · exact hd
  exact interval_union_strict hav2 hbv2 hy hc3 hy3 hay hby

lemma mergeX_good {bin : Rect} {qs : List Rect} {a b : Rect}
    (ha : GoodR bin qs a) (hb : GoodR bin qs b) (hx : a.x0 ≤ b.x1)
    (hc1 : a.y0 ≤ b.y0) (hc2 : b.y1 ≤ a.y1) (hc3 : b.x0 ≤ a.x1) :
    GoodR bin qs ⟨min a.x0 b.x0, b.y0, max a.x1 b.x1, b.y1⟩ := by
  obtain ⟨⟨hav1, hav2⟩, ⟨ha1, ha2, ha3, ha4⟩, haq⟩ := ha
  obtain ⟨⟨hbv1, hbv2⟩, ⟨hb1, hb2, hb3, hb4⟩, hbq⟩ := hb
  refine ⟨⟨le_trans (min_le_left _ _) (le_trans hav1 (le_max_left _ _)), hbv2⟩,
    ⟨le_min ha1 hb1, hb2, max_le ha3 hb3, hb4⟩, ?_⟩
  intro q hq
  by_contra hnd
  rw [not_disj_iff] at hnd
  obtain ⟨hx2, hy2⟩ := hnd
  have hy3 : max b.y0 q.y0 < min b.y1 q.y1 := hy2
  have hx3 : max (min a.x0 b.x0) q.x0 < min (max a.x1 b.x1) q.x1 := hx2
  have hay2 : max a.y0 q.y0 < min a.y1 q.y1 :=
    lt_of_le_of_lt (max_le_max hc1 le_rfl)
      (lt_of_lt_of_le hy3 (min_le_min hc2 le_rfl))
  have hax : min a.x1 q.x1 ≤ max a.x0 q.x0 := by
    rcases disj_elim (haq q hq) with hd | hd
    · exact hd
    · exact absurd hay2 (not_lt_of_le hd)
  have hbx : min b.x1 q.x1 ≤ max b.x0 q.x0 := by
    rcases disj_elim (hbq q hq) with hd | hd
    · exact hd
    · exact absurd hy3 (not_lt_of_le hd)
  exact interval_union_strict hav1 hbv1 hx hc3 hx3 hax hbx

lemma expandY_good {bin : Rect} {qs : List Rect} {a b : Rect}
    (ha : GoodR bin qs a) (hb : GoodR bin qs b) (hy : a.y0 ≤ b.y1) :
    GoodR bin qs (expandY a b) := by
  unfold expandY
  split_ifs with hc
  · exact mergeY_good ha hb hy hc.1 hc.2.1 hc.2.2
  · exact hb

lemma expandX_good {bin : Rect} {qs : List Rect} {a b : Rect}
    (ha : GoodR bin qs a) (hb : GoodR bin qs b) (hx : a.x0 ≤ b.x1) :
    GoodR bin qs (expandX a b) := by
  unfold expandX
  split_ifs with hc
  · exact mergeX_good ha hb hx hc.1 hc.2.1 hc.2.2
  · exact hb

lemma expandY_x1 (a b : Rect) : (expandY a b).x1 = b.x1 := by
  unfold expandY
  split_ifs <;> rfl

lemma expandY_sub (a b : Rect) : SubRect b (expandY a b) := by
  unfold expandY
  split_ifs
  · exact ⟨le_refl _, min_le_right _ _, le_refl _, le_max_right _ _⟩
  · exact subRect_refl b

lemma expandX_sub (a b : Rect) : SubRect b (expandX a b) := by
  unfold expandX
  split_ifs
  · exact ⟨min_le_right _ _, le_refl _, le_max_right _ _, le_refl _⟩
  · exact subRect_refl b

lemma expand_sub (a b : Rect) : SubRect b (expand a b) :=
  subRect_trans (expandY_sub a b) (expandX_sub a (expandY a b))

lemma expand_good {bin : Rect} {qs : List Rect} {a b : Rect}
    (ha : GoodR bin qs a) (hb : GoodR bin qs b)
    (hiv : (intersect a b).isSome) : GoodR bin qs (expand a b) := by
  rw [intersect_some_iff] at hiv
  obtain ⟨hx, hy⟩ := hiv
  have hy1 : a.y0 ≤ b.y1 :=
    le_trans (le_max_left _ _) (le_trans hy (min_le_right _ _))
  have hx1 : a.x0 ≤ b.x1 :=
    le_trans (le_max_left _ _) (le_trans hx (min_le_right _ _))
  have hb2 := expandY_good ha hb hy1
  have hx2 : a.x0 ≤ (expandY a b).x1 := by
    rw [expandY_x1]
    exact hx1
  exact expandX_good ha hb2 hx2

lemma intersect_some_of_sub {a b c : Rect} (hab : (intersect a b).isSome)
    (hbc : SubRect b c) : (intersect c a).isSome := by
  rw [intersect_some_iff] at hab ⊢
  obtain ⟨hx, hy⟩ := hab
  obtain ⟨h1, h2, h3, h4⟩ := hbc
  constructor
  · calc max c.x0 a.x0 ≤ max b.x0 a.x0 := max_le_max h1 le_rfl
      _ = max a.x0 b.x0 := max_comm _ _
      _ ≤ min a.x1 b.x1 := hx
      _ = min b.x1 a.x1 := min_comm _ _
      _ ≤ min c.x1 a.x1 := min_le_min h3 le_rfl
  · calc max c.y0 a.y0 ≤ max b.y0 a.y0 := max_le_max h2 le_rfl
      _ = max a.y0 b.y0 := max_comm _ _
      _ ≤ min a.y1 b.y1 := hy
      _ = min b.y1 a.y1 := min_comm _ _
      _ ≤ min c.y1 a.y1 := min_le_min h4 le_rfl

lemma unionMaxPair_good {bin : Rect} {qs : List Rect} {a b : Rect}
    (ha : GoodR bin qs a) (hb : GoodR bin qs b) :
    GoodR bin qs (unionMaxPair a b).1 ∧ GoodR bin qs (unionMaxPair a b).2 := by
  unfold unionMaxPair
  cases hi : intersect a b with
  | none => exact ⟨ha, hb⟩
  | some ov =>
    split_ifs with h1 h2
    · exact ⟨ha, hb⟩
    · exact ⟨ha, hb⟩
    · have hiv : (intersect a b).isSome := by
        rw [hi]
        rfl
      have hb2 : GoodR bin qs (expand a b) := expand_good ha hb hiv
      have hiv2 : (intersect (expand a b) a).isSome :=
        intersect_some_of_sub hiv (expand_sub a b)
      exact ⟨expand_good hb2 ha hiv2, hb2⟩

lemma min_ne_left {x y : ℚ} (h : min x y ≠ x) : y < x ∧ min x y = y := by
  rcases min_cases x y with ⟨e, _⟩ | ⟨e, f⟩
  · exact absurd e h
  · exact ⟨f, e⟩

lemma max_ne_left {x y : ℚ} (h : max x y ≠ x) : x < y ∧ max x y = y := by
  rcases max_cases x y with ⟨e, _⟩ | ⟨e, f⟩
  · exact absurd e h
  · exact ⟨f, e⟩

/-- `GoodR` for an option-valued heap slot (`none` is a nulled slot). -/
def GoodO (bin : Rect) (qs : List Rect) (o : Option Rect) : Prop :=
  ∀ r, o = some r → GoodR bin qs r

lemma unionAllBody_good {bin : Rect} {qs : List Rect}
    {heap : List (Option Rect)} {i j : ℕ}
    (h : ∀ o ∈ heap, GoodO bin qs o) :
    ∀ o ∈ unionAllBody heap i j, GoodO bin qs o := by
  unfold unionAllBody
  split
  · exact h
  · split
    · rename_i a b hgi hgj
      have hga : GoodR bin qs a :=
        h _ (List.get?_mem hgi) a rfl
      have hgb : GoodR bin qs b :=
        h _ (List.get?_mem hgj) b rfl
      have hp := unionMaxPair_good hga hgb
      have hset : ∀ o ∈ ((heap.set i (some (unionMaxPair a b).1)).set j
          (some (unionMaxPair a b).2)), GoodO bin qs o := by
        intro o ho
        rcases List.mem_or_eq_of_mem_set ho with ho | rfl
        · rcases List.mem_or_eq_of_mem_set ho with ho | rfl
          · exact h o ho
          · intro r hr
            obtain rfl : (unionMaxPair a b).1 = r := Option.some_injective _ hr
            exact hp.1
        · intro r hr
          obtain rfl : (unionMaxPair a b).2 = r := Option.some_injective _ hr
          exact hp.2
      split_ifs
      · intro o ho
        rcases List.mem_or_eq_of_mem_set ho with ho | rfl
        · exact hset o ho
        · intro r hr
          simp at hr
      · intro o ho
        rcases List.mem_or_eq_of_mem_set ho with ho | rfl
        · exact hset o ho
        · intro r hr
          simp at hr
      · exact hset
    · exact h

lemma unionAll_good {bin : Rect} {qs : List Rect} {heap : List (Option Rect)}
    (h : ∀ o ∈ heap, GoodO bin qs o) :
    ∀ r ∈ unionAll heap, GoodR bin qs r := by
  intro r hr
  unfold unionAll at hr
  rw [List.mem_filterMap] at hr
  obtain ⟨o, ho, heq⟩ := hr
  have step : ∀ (hp : List (Option Rect)) (i : ℕ),
      (∀ o2 ∈ hp, GoodO bin qs o2) →
        ∀ o2 ∈ (List.range heap.length).foldl
          (fun h3 j => unionAllBody h3 i j) hp, GoodO bin qs o2 := by
    intro hp i hhp
    exact foldl_rec (P := fun hp2 => ∀ o2 ∈ hp2, GoodO bin qs o2)
      (Q := fun _ => True) _ (fun a b ha _ => unionAllBody_good ha) _
      (fun _ _ => trivial) _ hhp
  have hfold := foldl_rec (P := fun hp2 => ∀ o2 ∈ hp2, GoodO bin qs o2)
    (Q := fun _ => True) _ (fun a b ha _ => step a b ha) (List.range heap.length)
    (fun _ _ => trivial) heap h
  exact hfold o ho r heq

lemma goodR_append {bin : Rect} {qs : List Rect} {blk r : Rect}
    (hg : GoodR bin qs r) (hd : Disj r blk) : GoodR bin (qs ++ [blk]) r := by
  obtain ⟨hv, hs, hq⟩ := hg
  refine ⟨hv, hs, ?_⟩
  intro q hq2
  rcases List.mem_append.mp hq2 with hq2 | hq2
  · exact hq q hq2
  · rw [List.mem_singleton.mp hq2]
    exact hd

lemma subRect_good {bin : Rect} {qs : List Rect} {r s : Rect}
    (hrs : SubRect r s) (hv : r.x0 ≤ r.x1 ∧ r.y0 ≤ r.y1)
    (hg : GoodR bin qs s) : GoodR bin qs r := by
  obtain ⟨_, hs, hq⟩ := hg
  exact ⟨hv, subRect_trans hrs hs, fun q hq2 => subRect_disj hrs (hq q hq2)⟩

lemma splitHeapBlock_good {bin : Rect} {qs : List Rect} {hb blk ov : Rect}
    (hhb : GoodR bin qs hb) (hov : intersect hb blk = some ov) :
    ∀ p ∈ splitHeapBlock hb ov, GoodR bin (qs ++ [blk]) p := by
  obtain ⟨hoveq, hx, hy⟩ := intersect_eq_some hov
  have hv1 : hb.x0 ≤ hb.x1 := hhb.1.1
  have hv2 : hb.y0 ≤ hb.y1 := hhb.1.2
  subst hoveq
  intro p hp
  unfold splitHeapBlock at hp
  simp only [List.mem_append] at hp
  rcases hp with ((hp | hp) | hp) | hp
  · -- top piece
    rw [List.mem_ite_nil_right] at hp
    obtain ⟨hne, hp⟩ := hp
    rw [List.mem_singleton] at hp
    subst hp
    refine goodR_append (subRect_good ?_ ?_ hhb) ?_
    · exact ⟨le_refl _, le_trans (le_max_left _ _) hy, le_refl _, le_refl _⟩
    · exact ⟨hv1, min_le_left _ _⟩
    · exact Or.inr (le_max_left _ _)
  · -- right piece
    rw [List.mem_ite_nil_right] at hp
    obtain ⟨hne, hp⟩ := hp
    rw [List.mem_singleton] at hp
    subst hp
    refine goodR_append (subRect_good ?_ ?_ hhb) ?_
    · exact ⟨le_trans (le_max_left _ _) hx, le_refl _, le_refl _, le_refl _⟩
    · exact ⟨min_le_left _ _, hv2⟩
    · exact Or.inl (le_max_left _ _)
  · -- bottom piece
    rw [List.mem_ite_nil_right] at hp
    obtain ⟨hne, hp⟩ := hp
    rw [List.mem_singleton] at hp
    subst hp
    refine goodR_append (subRect_good ?_ ?_ hhb) ?_
    · exact ⟨le_refl _, le_refl _, le_refl _, le_trans hy (min_le_left _ _)⟩
    · exact ⟨hv1, le_max_left _ _⟩
    · exact Or.inr (min_le_left _ _)
  · -- left piece
    rw [List.mem_ite_nil_right] at hp
    obtain ⟨hne, hp⟩ := hp
    rw [List.mem_singleton] at hp
    subst hp
    refine goodR_append (subRect_good ?_ ?_ hhb) ?_
    · exact ⟨le_refl _, le_refl _, le_trans hx (min_le_left _ _), le_refl _⟩
    · exact ⟨le_max_left _ _, hv2⟩
    · exact Or.inl (min_le_left _ _)

lemma adjustHeap_good {bin : Rect} {qs : List Rect} {heap : List Rect}
    {blk : Rect} (h : ∀ r ∈ heap, GoodR bin qs r) :
    ∀ r ∈ adjustHeap heap blk, GoodR bin (qs ++ [blk]) r := by
  unfold adjustHeap
  apply unionAll_good
  intro o ho
  rcases List.mem_append.mp ho with ho | ho
  · obtain ⟨hb, hhb, heq⟩ := List.mem_map.mp ho
    intro r hr
    subst heq
    by_cases hi : (intersect hb blk).isSome
    · rw [if_pos hi] at hr
      simp at hr
    · rw [if_neg hi] at hr
      obtain rfl : hb = r := Option.some_injective _ hr
      exact goodR_append (h hb hhb)
        (intersect_none_disj (Option.not_isSome_iff_eq_none.mp hi))
  · obtain ⟨p, hp, heq⟩ := List.mem_map.mp ho
    intro r hr
    rw [← heq] at hr
    obtain rfl : p = r := Option.some_injective _ hr
    obtain ⟨hb, hhb, hmem⟩ := List.mem_flatMap.mp hp
    cases hov : intersect hb blk with
    | none =>
      rw [hov] at hmem
      simp at hmem
    | some ov =>
      rw [hov] at hmem
      exact splitHeapBlock_good (h hb hhb) hov p hmem

/-! ## Fit-level lemmas -/

lemma rotate_packed (b : Block) : (Block.rotate b).packed = b.packed := by
  unfold Block.rotate
  split_ifs <;> rfl

lemma rotate_index (b : Block) : (Block.rotate b).index = b.index := by
  unfold Block.rotate
  split_ifs <;> rfl

lemma findInHeap_some {heap : List Rect} {w h : ℚ} {hb : Rect}
    (hf : findInHeap heap w h = some hb) :
    hb ∈ heap ∧ fitsIn w h hb = true :=
  ⟨List.mem_of_find?_eq_some hf, List.find?_some hf⟩

lemma place_sub {b : Block} {hb : Rect} (hf : fitsIn b.w b.h hb = true) :
    SubRect (placedRect (place b hb)) hb := by
  have hf2 : b.w ≤ hb.x1 - hb.x0 ∧ b.h ≤ hb.y1 - hb.y0 := of_decide_eq_true hf
  obtain ⟨h1, h2⟩ := hf2
  refine ⟨le_refl _, le_refl _, ?_, ?_⟩
  · show hb.x0 + b.w ≤ hb.x1
    linarith
  · show hb.y0 + b.h ≤ hb.y1
    linarith

lemma fitOne_cases (allow90 : Bool) (heap : List Rect) (b : Block) :
    (∃ b0 hb, (b0 = b ∨ allow90 = true ∧ b0 = Block.rotate b) ∧
        findInHeap heap b0.w b0.h = some hb ∧
        fitOne allow90 heap b =
          (adjustHeap heap (place b0 hb).rect, place b0 hb)) ∨
      ((fitOne allow90 heap b).1 = heap ∧
        ((allow90 = false ∧ (fitOne allow90 heap b).2 = b) ∨
          (allow90 = true ∧ (fitOne allow90 heap b).2 = Block.rotate b))) := by
  unfold fitOne
  split
  · rename_i hb h1
    exact Or.inl ⟨b, hb, Or.inl rfl, h1, rfl⟩
  · rename_i h1
    split_ifs with ha
    · split
      · rename_i hb h2
        exact Or.inl ⟨Block.rotate b, hb, Or.inr ⟨ha, rfl⟩, h2, rfl⟩
      · exact Or.inr ⟨rfl, Or.inr ⟨ha, rfl⟩⟩
    · exact Or.inr ⟨rfl, Or.inl ⟨Bool.eq_false_iff.mpr ha, rfl⟩⟩

lemma fitStep_inv {bin : Rect} {allow90 : Bool} {binIndex : ℕ}
    (st : FitState) (b : Block) (hInv : StInv bin st) (hb : b.packed = false) :
    StInv bin (fitStep allow90 binIndex st b) := by
  obtain ⟨hheap, hpair, hcont⟩ := hInv
  unfold fitStep
  rcases fitOne_cases allow90 st.heap b with
    ⟨b0, hbk, _hb0, hfind, heq⟩ | ⟨hheap2, hbl⟩
  · rw [heq]
    split_ifs with hcond
    swap
    · exact absurd rfl hcond
    obtain ⟨hmem, hfits⟩ := findInHeap_some hfind
    have hgood : GoodR bin (st.packedBlocks.map placedRect) hbk := hheap hbk hmem
    have hprect : placedRect { place b0 hbk with binIndex := some binIndex } =
        (place b0 hbk).rect := rfl
    have hsub : SubRect (placedRect { place b0 hbk with binIndex := some binIndex }) hbk := by
      rw [hprect]
      exact place_sub hfits
    refine ⟨?_, ?_, ?_⟩
    · intro r hr
      have hmap : (st.packedBlocks ++
          [{ place b0 hbk with binIndex := some binIndex }]).map placedRect =
          st.packedBlocks.map placedRect ++ [(place b0 hbk).rect] := by
        rw [List.map_append]
        rfl
      rw [hmap]
      exact adjustHeap_good hheap r hr
    · rw [List.pairwise_append]
      refine ⟨hpair, List.pairwise_singleton _ _, ?_⟩
      intro p hp q hq
      rw [List.mem_singleton] at hq
      subst hq
      have hd : Disj hbk (placedRect p) :=
        hgood.2.2 (placedRect p) (List.mem_map_of_mem placedRect hp)
      exact disj_symm (subRect_disj hsub hd)
    · intro p hp
      rcases List.mem_append.mp hp with hp | hp
      · exact hcont p hp
      · rw [List.mem_singleton] at hp
        subst hp
        exact subRect_trans hsub hgood.2.1
  · have hnp : (fitOne allow90 st.heap b).2.packed = false := by
      rcases hbl with ⟨_, hbl⟩ | ⟨_, hbl⟩
      · rw [hbl]
        exact hb
      · rw [hbl, rotate_packed]
        exact hb
    split_ifs with hcond
    · exact absurd hcond (by rw [hnp]; exact Bool.false_ne_true)
    · rw [hheap2]
      exact ⟨hheap, hpair, hcont⟩

lemma fit_master (w h : ℚ) (allow90 : Bool) (blocks : List Block)
    (binIndex : ℕ) (hw : 0 ≤ w) (hh : 0 ≤ h)
    (hbs : ∀ b ∈ blocks, b.packed = false) :
    StInv ⟨0, 0, w, h⟩
      (blocks.foldl (fitStep allow90 binIndex) (fitInit w h)) := by
  apply foldl_rec (P := StInv ⟨0, 0, w, h⟩) (Q := fun b => b.packed = false) _
    (fun st b hst hpb => fitStep_inv st b hst hpb) blocks hbs (fitInit w h)
  refine ⟨?_, List.Pairwise.nil, ?_⟩
  · intro r hr
    rw [List.mem_singleton.mp hr]
    exact ⟨⟨hw, hh⟩, subRect_refl _, fun q hq => absurd hq (List.not_mem_nil q)⟩
  · intro p hp
    exact absurd hp (List.not_mem_nil p)

/-! ## Claim theorems: C1 and C2 -/

/-- C1.  No-overlap invariant: for every call to `Packer.fit` on a bin of
positive width and height with blocks of positive dimensions (and, as at
every call site of the program, not yet packed), any two distinct blocks
in the returned `packedBlocks` that share the same bin index have
placement rectangles `[x0, x0 + w] × [y0, y0 + h]` — with the block's
current width and height, after any rotation — that intersect with area
zero. -/
theorem fit_no_overlap (w h : ℚ) (allow90 : Bool) (blocks : List Block)
    (binIndex : ℕ) (hw : 0 < w) (hh : 0 < h)
    (hblocks : ∀ b ∈ blocks, Block.posDims b ∧ b.packed = false) :
    (Packer.fit w h allow90 blocks binIndex).packedBlocks.Pairwise
      (fun p q => p.binIndex = q.binIndex →
        interArea ⟨p.x0, p.y0, p.x0 + p.w, p.y0 + p.h⟩
          ⟨q.x0, q.y0, q.x0 + q.w, q.y0 + q.h⟩ = 0) := by
  have hm := fit_master w h allow90 blocks binIndex (le_of_lt hw)
    (le_of_lt hh) (fun b hb => (hblocks b hb).2)
  have heq : (Packer.fit w h allow90 blocks binIndex).packedBlocks =
      (blocks.foldl (fitStep allow90 binIndex) (fitInit w h)).packedBlocks :=
    rfl
  rw [heq]
  refine List.Pairwise.imp ?_ hm.2.1
  intro p q hd _
  exact disj_interArea hd

unseal Rat.add Rat.sub Rat.mul in
/-- Witness for C1 at the spec's own scenario: a 100 × 100 bin with blocks
60 × 100 and 40 × 100. -/
theorem fit_no_overlap_witness :
    (0 < (100 : ℚ)) ∧
      (∀ b ∈ [testBlock 0 60 100, testBlock 1 40 100],
        Block.posDims b ∧ b.packed = false) ∧
      (Packer.fit 100 100 false [testBlock 0 60 100, testBlock 1 40 100]
          0).packedBlocks.Pairwise
        (fun p q => p.binIndex = q.binIndex →
          interArea ⟨p.x0, p.y0, p.x0 + p.w, p.y0 + p.h⟩
            ⟨q.x0, q.y0, q.x0 + q.w, q.y0 + q.h⟩ = 0) :=
  ⟨by decide, by decide,
    fit_no_overlap 100 100 false [testBlock 0 60 100, testBlock 1 40 100] 0
      (by decide) (by decide) (by decide)⟩

/-- C2.  Containment invariant: for every call to `Packer.fit` on a bin of
positive width `W` and height `H` with blocks of positive dimensions (and,
as at every call site of the program, not yet packed), every block in the
returned `packedBlocks` satisfies `0 ≤ x0`, `0 ≤ y0`, `x0 + w ≤ W` and
`y0 + h ≤ H`. -/
theorem fit_containment (w h : ℚ) (allow90 : Bool) (blocks : List Block)
    (binIndex : ℕ) (hw : 0 < w) (hh : 0 < h)
    (hblocks : ∀ b ∈ blocks, Block.posDims b ∧ b.packed = false) :
    ∀ b ∈ (Packer.fit w h allow90 blocks binIndex).packedBlocks,
      0 ≤ b.x0 ∧ 0 ≤ b.y0 ∧ b.x0 + b.w ≤ w ∧ b.y0 + b.h ≤ h := by
  have hm := fit_master w h allow90 blocks binIndex (le_of_lt hw)
    (le_of_lt hh) (fun b hb => (hblocks b hb).2)
  intro b hb
  have hsub := hm.2.2 b hb
  exact ⟨hsub.1, hsub.2.1, hsub.2.2.1, hsub.2.2.2⟩

unseal Rat.add Rat.sub Rat.mul in
/-- Witness for C2: a rotated placement in a 50 × 90 bin (the spec's
80 × 40 scenario block, which packs rotated). -/
theorem fit_containment_witness :
    (0 < (50 : ℚ)) ∧
      (∀ b ∈ [testBlock 0 80 40], Block.posDims b ∧ b.packed = false) ∧
      (∀ b ∈ (Packer.fit 50 90 true [testBlock 0 80 40] 0).packedBlocks,
        0 ≤ b.x0 ∧ 0 ≤ b.y0 ∧ b.x0 + b.w ≤ 50 ∧ b.y0 + b.h ≤ 90) :=
  ⟨by decide, by decide,
    fit_containment 50 90 true [testBlock 0 80 40] 0 (by decide) (by decide)
      (by decide)⟩

/-! ## Claim C3: conservation -/

lemma fitOne_index (allow90 : Bool) (heap : List Rect) (b : Block) :
    (fitOne allow90 heap b).2.index = b.index := by
  rcases fitOne_cases allow90 heap b with
    ⟨b0, hbk, hb0, _, heq⟩ | ⟨_, hbl⟩
  · rw [heq]
    rcases hb0 with rfl | ⟨_, rfl⟩
    · rfl
    · exact rotate_index b
  · rcases hbl with ⟨_, hbl⟩ | ⟨_, hbl⟩
    · rw [hbl]
    · rw [hbl]
      exact rotate_index b

lemma fitStep_counts (allow90 : Bool) (binIndex : ℕ) (st : FitState)
    (b : Block) :
    (fitStep allow90 binIndex st b).packedBlocks.length +
      (fitStep allow90 binIndex st b).remainingBlocks.length =
      st.packedBlocks.length + st.remainingBlocks.length + 1 := by
  unfold fitStep
  split_ifs <;> simp <;> omega

lemma append_singleton_perm {α : Type _} (P R : List α) (i : α) :
    ((P ++ [i]) ++ R).Perm ((P ++ R) ++ [i]) := by
  rw [List.append_assoc, List.append_assoc]
  exact List.Perm.append_left P List.perm_append_comm

lemma fitStep_perm (allow90 : Bool) (binIndex : ℕ) (st : FitState)
    (b : Block) :
    ((fitStep allow90 binIndex st b).packedBlocks.map Block.index ++
      (fitStep allow90 binIndex st b).remainingBlocks.map Block.index).Perm
      ((st.packedBlocks.map Block.index ++
        st.remainingBlocks.map Block.index) ++ [b.index]) := by
  unfold fitStep
  split_ifs
  · simp only [List.map_append, List.map_singleton]
    have hidx : ({ (fitOne allow90 st.heap b).2 with
        binIndex := some binIndex } : Block).index = b.index :=
      fitOne_index allow90 st.heap b
    rw [hidx]
    exact append_singleton_perm _ _ _
  · simp only [List.map_append, List.map_singleton]
    rw [fitOne_index, List.append_assoc]

lemma fit_fold_counts (allow90 : Bool) (binIndex : ℕ) :
    ∀ (blocks : List Block) (st : FitState),
      ((blocks.foldl (fitStep allow90 binIndex) st).packedBlocks.length +
        (blocks.foldl (fitStep allow90 binIndex) st).remainingBlocks.length =
        st.packedBlocks.length + st.remainingBlocks.length + blocks.length) ∧
      ((blocks.foldl (fitStep allow90 binIndex) st).packedBlocks.map
          Block.index ++
        (blocks.foldl (fitStep allow90 binIndex) st).remainingBlocks.map
          Block.index).Perm
        ((st.packedBlocks.map Block.index ++
          st.remainingBlocks.map Block.index) ++ blocks.map Block.index) := by
  intro blocks
  induction blocks with
  | nil =>
    intro st
    exact ⟨rfl, by simp⟩
  | cons b bs ih =>
    intro st
    rw [List.foldl_cons]
    constructor
    · rw [(ih (fitStep allow90 binIndex st b)).1,
        fitStep_counts allow90 binIndex st b]
      simp
      omega
    · refine ((ih (fitStep allow90 binIndex st b)).2).trans ?_
      have h1 := fitStep_perm allow90 binIndex st b
      refine (List.Perm.append_right (bs.map Block.index) h1).trans ?_
      simp only [List.map_cons]
      rw [List.append_assoc, List.singleton_append]

lemma fit_counts (w h : ℚ) (allow90 : Bool) (blocks : List Block)
    (binIndex : ℕ) :
    (Packer.fit w h allow90 blocks binIndex).packedBlocks.length +
      (Packer.fit w h allow90 blocks binIndex).remainingBlocks.length =
      blocks.length := by
  have h1 := (fit_fold_counts allow90 binIndex blocks (fitInit w h)).1
  simpa [fitInit] using h1

lemma attemptBinsLoop_counts (allow90 preferCount : Bool) (tic : ℕ)
    (tia : ℚ) :
    ∀ (bins : List (ℚ × ℚ)) (i : ℕ) (st : AttemptState),
      (attemptBinsLoop allow90 preferCount tic tia bins i st).packedBlocks.length +
        (attemptBinsLoop allow90 preferCount tic tia bins i st).remainingBlocks.length =
        st.packedBlocks.length + st.remainingBlocks.length := by
  intro bins
  induction bins with
  | nil =>
    intro i st
    rfl
  | cons bin rest ih =>
    intro i st
    obtain ⟨w2, h2⟩ := bin
    have hfc := fit_counts w2 h2 allow90 st.remainingBlocks i
    simp only [attemptBinsLoop]
    split_ifs with hc
    · simp only [List.length_append]
      omega
    · rw [ih]
      simp only [List.length_append]
      omega

lemma attemptRun_counts (bins : List (ℚ × ℚ)) (allow90 preferCount : Bool)
    (tic : ℕ) (tia : ℚ) (blocks : List Block) :
    (attemptRun bins allow90 preferCount tic tia blocks).packedBlocks.length +
      (attemptRun bins allow90 preferCount tic tia blocks).remainingBlocks.length =
      blocks.length := by
  have h1 := attemptBinsLoop_counts allow90 preferCount tic tia bins 0
    { area := 0, binCount := bins.length, packedBlocks := [],
      remainingBlocks := blocks, score := 0 }
  simpa using h1

/-- C3.  Conservation: for every call to `Packer.fit(blocks, binIndex)`,
every element of the input list — tracked by its stable `index` — ends up
in exactly one of the two returned lists, so
`packedBlocks.length + remainingBlocks.length = blocks.length` and the
returned `count` equals `packedBlocks.length`; consequently for every
attempt (here `attemptRun`, whose bins loop feeds each bin the previous
leftovers), packed count plus remaining count equals the original item
count. -/
theorem fit_conservation (w h : ℚ) (allow90 : Bool) (blocks : List Block)
    (binIndex : ℕ) (bins : List (ℚ × ℚ)) (preferCount : Bool) (tic : ℕ)
    (tia : ℚ) :
    ((Packer.fit w h allow90 blocks binIndex).packedBlocks.length +
      (Packer.fit w h allow90 blocks binIndex).remainingBlocks.length =
      blocks.length) ∧
    ((Packer.fit w h allow90 blocks binIndex).count =
      (Packer.fit w h allow90 blocks binIndex).packedBlocks.length) ∧
    (((Packer.fit w h allow90 blocks binIndex).packedBlocks.map Block.index ++
      (Packer.fit w h allow90 blocks binIndex).remainingBlocks.map
        Block.index).Perm (blocks.map Block.index)) ∧
    ((attemptRun bins allow90 preferCount tic tia blocks).packedBlocks.length +
      (attemptRun bins allow90 preferCount tic tia blocks).remainingBlocks.length =
      blocks.length) := by
  refine ⟨fit_counts w h allow90 blocks binIndex, rfl, ?_,
    attemptRun_counts bins allow90 preferCount tic tia blocks⟩
  have h2 := (fit_fold_counts allow90 binIndex blocks (fitInit w h)).2
  simpa [fitInit] using h2

/-! ## Claim C4: first-fit placement -/

/-- C4.  First-fit placement: in the per-block step of `Packer.fit`, the
search scans the heap in order and selects the first free region whose
width and height are both at least the block's current width and height,
placing the block at that region's top-left corner (`place` sets
`x0 := region.x0`, `y0 := region.y0` and `packed := true`); if no region
fits in the current orientation and rotation is allowed, the block's
dimensions are swapped (`Block.rotate`) and the search is repeated exactly
once; if that also fails the heap is untouched and the block stays
unpacked. -/
theorem fit_first_fit (allow90 : Bool) (heap : List Rect) (b : Block) :
    (∀ hb, findInHeap heap b.w b.h = some hb →
      (∃ l1 l2, heap = l1 ++ hb :: l2 ∧
        (∀ r ∈ l1, fitsIn b.w b.h r = false) ∧
        fitsIn b.w b.h hb = true) ∧
      fitOne allow90 heap b =
        (adjustHeap heap (place b hb).rect, place b hb)) ∧
    (findInHeap heap b.w b.h = none → allow90 = true →
      ∀ hb, findInHeap heap (Block.rotate b).w (Block.rotate b).h = some hb →
        (∃ l1 l2, heap = l1 ++ hb :: l2 ∧
          (∀ r ∈ l1, fitsIn (Block.rotate b).w (Block.rotate b).h r = false) ∧
          fitsIn (Block.rotate b).w (Block.rotate b).h hb = true) ∧
        fitOne allow90 heap b =
          (adjustHeap heap (place (Block.rotate b) hb).rect,
            place (Block.rotate b) hb)) ∧
    (findInHeap heap b.w b.h = none →
      (allow90 = true →
        findInHeap heap (Block.rotate b).w (Block.rotate b).h = none →
        fitOne allow90 heap b = (heap, Block.rotate b)) ∧
      (allow90 = false → fitOne allow90 heap b = (heap, b))) := by
  refine ⟨?_, ?_, ?_⟩
  · intro hb hf
    refine ⟨find?_first _ heap hb hf, ?_⟩
    unfold fitOne
    rw [hf]
  · intro hf ha hb hf2
    refine ⟨find?_first _ heap hb hf2, ?_⟩
    unfold fitOne
    rw [hf, ha, hf2]
    rfl
  · intro hf
    constructor
    · intro ha hf2
      unfold fitOne
      rw [hf, ha, hf2]
      rfl
    · intro ha
      unfold fitOne
      rw [hf, ha]
      rfl

unseal Rat.add Rat.sub in
/-- Witness for C4: in the heap `heapW` the 5 × 5 region is skipped and the
10 × 10 block lands at the top-left corner of the 30 × 30 region. -/
theorem fit_first_fit_witness :
    findInHeap heapW blockW.w blockW.h = some rectW ∧
      (∃ l1 l2, heapW = l1 ++ rectW :: l2 ∧
        (∀ r ∈ l1, fitsIn blockW.w blockW.h r = false) ∧
        fitsIn blockW.w blockW.h rectW = true) ∧
      fitOne false heapW blockW =
        (adjustHeap heapW (place blockW rectW).rect, place blockW rectW) :=
  ⟨by decide, ((fit_first_fit false heapW blockW).1 rectW (by decide)).1,
    ((fit_first_fit false heapW blockW).1 rectW (by decide)).2⟩

/-! ## Claim C5: what happens to unplaced blocks -/

unseal Rat.add Rat.sub in
/-- C5 counterexample: with rotation allowed, a 20 × 5 block that fits a
10 × 10 bin in neither orientation comes back in `remainingBlocks` in its
rotated state (`w`/`h` swapped, `isRotated = true`), not unchanged as the
claim asserts. -/
theorem remaining_block_mutated :
    (Packer.fit 10 10 true [testBlock 0 20 5] 0).packedBlocks = [] ∧
      (Packer.fit 10 10 true [testBlock 0 20 5] 0).remainingBlocks.length = 1 ∧
      (Packer.fit 10 10 true [testBlock 0 20 5] 0).remainingBlocks ≠
        [testBlock 0 20 5] ∧
      (Packer.fit 10 10 true [testBlock 0 20 5] 0).remainingBlocks.map
        Block.isRotated = [true] ∧
      (testBlock 0 20 5).isRotated = false := by
  exact ⟨by decide, by decide, by decide, by decide, by decide⟩

/-- C5 amended: every block in `remainingBlocks` is one of the input
blocks, unpositioned, in input order — returned exactly as it came in when
rotation is disabled, and after exactly one `Block.rotate` call when
rotation is enabled (so a non-square block that failed both orientations
comes back with `w h dx dy` swapped and `isRotated` toggled, while square
blocks are unchanged). -/
theorem fit_remaining_after_rotation (w h : ℚ) (allow90 : Bool)
    (blocks : List Block) (binIndex : ℕ) :
    (Packer.fit w h allow90 blocks binIndex).remainingBlocks.Sublist
      (if allow90 then blocks.map Block.rotate else blocks) := by
  have hfold : ∀ (bs : List Block) (st : FitState),
      ∃ r, (bs.foldl (fitStep allow90 binIndex) st).remainingBlocks =
        st.remainingBlocks ++ r ∧
        r.Sublist (if allow90 then bs.map Block.rotate else bs) := by
    intro bs
    induction bs with
    | nil =>
      intro st
      exact ⟨[], (List.append_nil _).symm, List.nil_sublist _⟩
    | cons b bs2 ih =>
      intro st
      rw [List.foldl_cons]
      obtain ⟨r, hr, hsub⟩ := ih (fitStep allow90 binIndex st b)
      by_cases hp : (fitOne allow90 st.heap b).2.packed = true
      · have hrem : (fitStep allow90 binIndex st b).remainingBlocks =
            st.remainingBlocks := by
          unfold fitStep
          rw [if_pos hp]
        refine ⟨r, by rw [hr, hrem], ?_⟩
        cases allow90
        · simpa using hsub.cons b
        · simpa using hsub.cons (Block.rotate b)
      · have hrem : (fitStep allow90 binIndex st b).remainingBlocks =
            st.remainingBlocks ++ [(fitOne allow90 st.heap b).2] := by
          unfold fitStep
          rw [if_neg hp]
        refine ⟨(fitOne allow90 st.heap b).2 :: r, ?_, ?_⟩
        · rw [hr, hrem, List.append_assoc, List.singleton_append]
        · rcases fitOne_cases allow90 st.heap b with
            ⟨b0, hbk, _, _, heq⟩ | ⟨_, hbl⟩
          · rw [heq] at hp
            exact absurd rfl hp
          · rcases hbl with ⟨ha, hbl⟩ | ⟨ha, hbl⟩
            · subst ha
              rw [hbl]
              simpa using hsub.cons₂ b
            · subst ha
              rw [hbl]
              simpa using hsub.cons₂ (Block.rotate b)
  obtain ⟨r, hr, hsub⟩ := hfold blocks (fitInit w h)
  have heq : (Packer.fit w h allow90 blocks binIndex).remainingBlocks =
      (blocks.foldl (fitStep allow90 binIndex) (fitInit w h)).remainingBlocks :=
    rfl
  rw [heq, hr]
  simpa [fitInit] using hsub

/-! ## Claim C10: rotate is an involution -/

lemma mkBlock_wellFormed (index : ℕ) (boundsW boundsH padding dx dy rdy : ℚ) :
    (mkBlock index boundsW boundsH padding dx dy rdy false).wellFormed := by
  unfold mkBlock Block.wellFormed
  exact ⟨rfl, rfl, rfl, rfl, rfl, rfl⟩

/-- C10.  `Block.rotate` is an involution and a no-op on squares: for every
block in the constructor-consistent state (`wellFormed`, as established by
the `Block` constructor), calling `rotate` twice restores the original
`w h dx dy` and `isRotated` values (indeed the whole block), and for a
block with `w = h` a single `rotate` changes nothing, so a square block is
never marked `isRotated`. -/
theorem rotate_involution (b : Block) (hwf : b.wellFormed) :
    Block.rotate (Block.rotate b) = b ∧ (b.w = b.h → Block.rotate b = b) := by
  obtain ⟨hrw, hrh, hif⟩ := hwf
  constructor
  · by_cases hsq : b.w = b.h
    · unfold Block.rotate
      rw [if_pos hsq, if_pos hsq]
    · obtain ⟨index, w, h, dx, dy, dims, rdims, irot, pk, bi, x0, y0, x1, y1⟩ := b
      simp only at hrw hrh hif hsq
      cases irot
      · simp only [if_false, Bool.false_eq_true] at hif
        obtain ⟨hw, hh, hdx, hdy⟩ := hif
        subst hw hh hdx hdy
        have hne : rdims.w ≠ rdims.h := by
          rw [hrw, hrh]
          exact fun hc => hsq hc.symm
        have hne2 : ¬ dims.h = dims.w := fun hc => hsq hc.symm
        simp [Block.rotate, hsq, hne, hne2, hrw, hrh]
      · simp only [if_true] at hif
        obtain ⟨hw, hh, hdx, hdy⟩ := hif
        subst hw hh hdx hdy
        have hne3 : ¬ dims.h = dims.w := by
          rw [← hrw, ← hrh]
          exact hsq
        have hne2 : ¬ dims.w = dims.h := fun hc => hne3 hc.symm
        simp [Block.rotate, hsq, hne2, hne3, hrw, hrh]
  · intro he
    unfold Block.rotate
    rw [if_pos he]

unseal Rat.add Rat.sub in
/-- Witness for C10 on a freshly constructed 7 × 3 block (bounds 6 × 2
plus padding 1). -/
theorem rotate_involution_witness :
    (mkBlock 0 6 2 1 0 0 0 false).wellFormed ∧
      Block.rotate (Block.rotate (mkBlock 0 6 2 1 0 0 0 false)) =
        mkBlock 0 6 2 1 0 0 0 false ∧
      ((mkBlock 0 6 2 1 0 0 0 false).w = (mkBlock 0 6 2 1 0 0 0 false).h →
        Block.rotate (mkBlock 0 6 2 1 0 0 0 false) =
          mkBlock 0 6 2 1 0 0 0 false) :=
  ⟨mkBlock_wellFormed 0 6 2 1 0 0 0,
    (rotate_involution (mkBlock 0 6 2 1 0 0 0 false)
      (mkBlock_wellFormed 0 6 2 1 0 0 0)).1,
    (rotate_involution (mkBlock 0 6 2 1 0 0 0 false)
      (mkBlock_wellFormed 0 6 2 1 0 0 0)).2⟩

/-! ## Claim C6: the score formula -/

lemma attemptBinsLoop_spec (allow90 preferCount : Bool) (tic : ℕ) (tia : ℚ) :
    ∀ (bins : List (ℚ × ℚ)) (i : ℕ) (st : AttemptState),
      ((attemptBinsLoop allow90 preferCount tic tia bins i st).score =
        st.score + ((binsTrace allow90 bins i st.remainingBlocks).map
          (specBinScore preferCount tic tia)).sum) ∧
      (bins ≠ [] →
        (attemptBinsLoop allow90 preferCount tic tia bins i st).binCount =
          i + (binsTrace allow90 bins i st.remainingBlocks).length) := by
  intro bins
  induction bins with
  | nil =>
    intro i st
    exact ⟨by simp [attemptBinsLoop, binsTrace], fun hne => absurd rfl hne⟩
  | cons bin rest ih =>
    intro i st
    obtain ⟨w2, h2⟩ := bin
    simp only [attemptBinsLoop, binsTrace]
    split_ifs with hc
    · constructor
      · simp only [List.map_cons, List.map_nil, List.sum_cons, List.sum_nil,
          add_zero]
        rw [specBinScore, scoreFactor]
      · intro _
        simp
    · constructor
      · rw [(ih (i + 1) _).1]
        dsimp only
        simp only [List.map_cons, List.sum_cons]
        rw [specBinScore, scoreFactor]
        ring
      · intro _
        cases rest with
        | nil =>
          simp [attemptBinsLoop, binsTrace]
        | cons r2 rest2 =>
          rw [(ih (i + 1) _).2 (by simp)]
          dsimp only
          simp only [List.length_cons]
          omega

/-- C6.  Score formula: after one attempt completes, its score equals the
sum over each processed bin (the entries of `binsTrace`) of
`(binWidth * binHeight / areaPackedInBin) * scoreFactor` — where
`scoreFactor` is `totalItemCount / packedCountInBin` for `bestFitBy =
count` and `totalItemArea / areaPackedInBin` for `bestFitBy = area` (the
spec-side `specBinScore`) — plus `(totalBinCount - binsActuallyUsed) *
100`, minus `remainingUnpackedCount * 100`.  Division is total rational
division; a bin that packs nothing would make the JS score `Infinity`, and
both sides here use the same convention. -/
theorem attempt_score_formula (bins : List (ℚ × ℚ))
    (allow90 preferCount : Bool) (totalItemCount : ℕ) (totalItemArea : ℚ)
    (blocks : List Block) :
    (attemptRun bins allow90 preferCount totalItemCount totalItemArea
      blocks).score =
      ((binsTrace allow90 bins 0 blocks).map
        (specBinScore preferCount totalItemCount totalItemArea)).sum +
      ((bins.length : ℚ) -
        ((binsTrace allow90 bins 0 blocks).length : ℚ)) * 100 -
      ((attemptRun bins allow90 preferCount totalItemCount totalItemArea
        blocks).remainingBlocks.length : ℚ) * 100 := by
  obtain ⟨h1, h2⟩ := attemptBinsLoop_spec allow90 preferCount
    totalItemCount totalItemArea bins 0
    { area := 0, binCount := bins.length, packedBlocks := [],
      remainingBlocks := blocks, score := 0 }
  unfold attemptRun
  dsimp only
  rw [h1]
  cases bins with
  | nil =>
    simp [attemptBinsLoop, binsTrace]
  | cons bin rest =>
    rw [h2 (by simp)]
    dsimp only
    push_cast
    ring

lemma bestUpd_none (cur : AttemptState) : bestUpd none cur = cur := rfl

lemma bestUpd_some (p cur : AttemptState) :
    bestUpd (some p) cur = if p.score < cur.score then cur else p := rfl

lemma bestUpd_bestState (cfg : OrchConfig) (sorter : ℕ → List Block → List Block)
    (mkBlocks : List Block) (tic : ℕ) (tia : ℚ) (a : ℕ) :
    bestUpd (bestState cfg sorter mkBlocks tic tia a)
      (attemptAt cfg sorter mkBlocks tic tia a) =
    bestAfter cfg sorter mkBlocks tic tia a := by
  cases a with
  | zero => rfl
  | succ a => rfl

lemma attemptsLoop_trace (cfg : OrchConfig) (sorter : ℕ → List Block → List Block)
    (mkBlocks : List Block) (tic : ℕ) (tia : ℚ) (hds : cfg.doNotSort = false) :
    ∀ fuel a : ℕ,
      (cfg.tryHarder = true →
        (attemptsLoop cfg sorter mkBlocks tic tia fuel a
          (bestState cfg sorter mkBlocks tic tia a)).1 = List.range' a fuel) ∧
      (cfg.tryHarder = false →
        ∃ L, (attemptsLoop cfg sorter mkBlocks tic tia fuel a
            (bestState cfg sorter mkBlocks tic tia a)).1 = List.range' a L ∧
          L ≤ fuel ∧
          (∀ k, k + 1 < L → ¬(4 < a + k ∧
            (bestAfter cfg sorter mkBlocks tic tia (a + k)).remainingBlocks.length = 0)) ∧
          (L < fuel → ∃ j, L = j + 1 ∧ 4 < a + j ∧
            (bestAfter cfg sorter mkBlocks tic tia (a + j)).remainingBlocks.length = 0)) := by
  intro fuel
  induction fuel with
  | zero =>
    intro a
    refine ⟨fun _ => rfl, fun _ => ⟨0, rfl, Nat.le_refl 0, ?_, ?_⟩⟩
    · intro k hk
      exact absurd hk (by omega)
    · intro hlt
      exact absurd hlt (by omega)
  | succ fuel ih =>
    intro a
    have hkey : bestState cfg sorter mkBlocks tic tia (a + 1) =
        some (bestUpd (bestState cfg sorter mkBlocks tic tia a)
          (attemptAt cfg sorter mkBlocks tic tia a)) := by
      rw [bestUpd_bestState]
      rfl
    constructor
    · intro hth
      have ih1 := (ih (a + 1)).1 hth
      rw [hkey] at ih1
      simp only [attemptsLoop]
      rw [if_neg (by simp [hds]), if_neg (by simp [hth])]
      dsimp only
      rw [List.range'_succ, ih1]
    · intro hth
      by_cases hstop : 4 < a ∧
          (bestAfter cfg sorter mkBlocks tic tia a).remainingBlocks.length = 0
      · refine ⟨1, ?_, by omega, ?_, ?_⟩
        · simp only [attemptsLoop]
          rw [if_neg (by simp [hds]),
            if_pos (by rw [bestUpd_bestState]; exact ⟨hth, hstop.1, hstop.2⟩)]
          rfl
        · intro k hk
          exact absurd hk (by omega)
        · intro _
          exact ⟨0, rfl, by simpa using hstop.1, by simpa using hstop.2⟩
      · obtain ⟨L, h1, h2, h3, h4⟩ := (ih (a + 1)).2 hth
        rw [hkey] at h1
        refine ⟨L + 1, ?_, by omega, ?_, ?_⟩
        · simp only [attemptsLoop]
          rw [if_neg (by simp [hds]),
            if_neg (by
              intro hc
              have h5 := hc.2.2
              rw [bestUpd_bestState] at h5
              exact hstop ⟨hc.2.1, h5⟩)]
          dsimp only
          rw [List.range'_succ, h1]
        · intro k hk
          cases k with
          | zero =>
            intro hcon
            exact hstop (by simpa using hcon)
          | succ k2 =>
            have h5 := h3 k2 (by omega)
            intro hcon
            apply h5
            have h6 : a + 1 + k2 = a + (k2 + 1) := by omega
            rw [h6]
            exact hcon
        · intro hlt
          obtain ⟨j, hj1, hj2, hj3⟩ := h4 (by omega)
          refine ⟨j + 1, by omega, ?_, ?_⟩
          · have h6 : a + (j + 1) = a + 1 + j := by omega
            rw [h6]
            exact hj2
          · have h6 : a + (j + 1) = a + 1 + j := by omega
            rw [h6]
            exact hj3

/-- C7: Early exit of the attempts loop.  With sorting enabled
(`doNotSort = false`): when `tryHarder` is set the loop executes the full
attempt budget, its trace of executed attempt indices being exactly
`0, 1, ..., fuel - 1`; when `tryHarder` is not set the trace is an initial
run `0, 1, ..., L - 1` of the budget such that no attempt completed before
the last one had index above 4 together with a best attempt with zero
remaining blocks, and if the loop stopped short of the budget then its
last executed attempt did: the loop stops issuing further attempts exactly
when, after completing an attempt of index > 4, the current best attempt
has no remaining blocks (`packItemsIllustrator`, main source lines
318-330). -/
theorem attempts_early_exit (cfg : OrchConfig)
    (sorter : ℕ → List Block → List Block) (mkBlocks : List Block)
    (tic : ℕ) (tia : ℚ) (fuel : ℕ) (hds : cfg.doNotSort = false) :
    (cfg.tryHarder = true →
      (attemptsLoop cfg sorter mkBlocks tic tia fuel 0 none).1 =
        List.range fuel) ∧
    (cfg.tryHarder = false →
      ∃ L, (attemptsLoop cfg sorter mkBlocks tic tia fuel 0 none).1 =
          List.range L ∧
        L ≤ fuel ∧
        (∀ k, k + 1 < L → ¬(4 < k ∧
          (bestAfter cfg sorter mkBlocks tic tia k).remainingBlocks.length = 0)) ∧
        (L < fuel → ∃ j, L = j + 1 ∧ 4 < j ∧
          (bestAfter cfg sorter mkBlocks tic tia j).remainingBlocks.length = 0)) := by
  have h := attemptsLoop_trace cfg sorter mkBlocks tic tia hds fuel 0
  have h0 : bestState cfg sorter mkBlocks tic tia 0 = none := rfl
  rw [h0] at h
  simp only [Nat.zero_add] at h
  rw [← List.range_eq_range'] at h
  constructor
  · exact h.1
  · intro hth
    obtain ⟨L, h1, h2, h3, h4⟩ := h.2 hth
    rw [← List.range_eq_range'] at h1
    exact ⟨L, h1, h2, h3, h4⟩

theorem attempts_early_exit_witness :
    (⟨[], false, false, true, false⟩ : OrchConfig).doNotSort = false ∧
    (attemptsLoop ⟨[], false, false, true, false⟩ (fun _ l => l) [] 0 0
      2 0 none).1 = List.range 2 :=
  ⟨rfl, (attempts_early_exit ⟨[], false, false, true, false⟩ (fun _ l => l)
    [] 0 0 2 rfl).1 rfl⟩

lemma attemptRun_nil_bins (allow90 preferCount : Bool) (tic : ℕ) (tia : ℚ)
    (blocks : List Block) :
    (attemptRun [] allow90 preferCount tic tia blocks).packedBlocks = [] ∧
    (attemptRun [] allow90 preferCount tic tia blocks).remainingBlocks = blocks :=
  ⟨rfl, rfl⟩

lemma bestAfter_pres (cfg : OrchConfig) (sorter : ℕ → List Block → List Block)
    (mkBlocks : List Block) (tic : ℕ) (tia : ℚ) (P : AttemptState → Prop)
    (hP : ∀ a, P (attemptAt cfg sorter mkBlocks tic tia a)) :
    ∀ a, P (bestAfter cfg sorter mkBlocks tic tia a) := by
  intro a
  induction a with
  | zero => exact hP 0
  | succ a ih =>
    have hstep : bestAfter cfg sorter mkBlocks tic tia (a + 1) =
        bestUpd (some (bestAfter cfg sorter mkBlocks tic tia a))
          (attemptAt cfg sorter mkBlocks tic tia (a + 1)) := rfl
    rw [hstep, bestUpd_some]
    split_ifs
    · exact hP (a + 1)
    · exact ih

lemma attemptsLoop_best_pres (cfg : OrchConfig)
    (sorter : ℕ → List Block → List Block) (mkBlocks : List Block)
    (tic : ℕ) (tia : ℚ) (P : AttemptState → Prop)
    (hP : ∀ a, P (attemptAt cfg sorter mkBlocks tic tia a)) :
    ∀ (fuel a : ℕ) (best : Option AttemptState),
      (∀ x, best = some x → P x) →
      ∀ x, (attemptsLoop cfg sorter mkBlocks tic tia fuel a best).2 = some x →
        P x := by
  intro fuel
  induction fuel with
  | zero =>
    intro a best hb x hx
    exact hb x hx
  | succ fuel ih =>
    intro a best hb x hx
    have hb2 : ∀ y,
        some (bestUpd best (attemptAt cfg sorter mkBlocks tic tia a)) = some y →
        P y := by
      intro y hy
      rw [← Option.some_inj.mp hy]
      cases best with
      | none =>
        rw [bestUpd_none]
        exact hP a
      | some p =>
        rw [bestUpd_some]
        split_ifs
        · exact hP a
        · exact hb p rfl
    simp only [attemptsLoop] at hx
    split_ifs at hx
    · exact hb2 x hx
    · exact hb2 x hx
    · exact ih (a + 1) _ hb2 x hx

lemma attemptsLoop_some (cfg : OrchConfig)
    (sorter : ℕ → List Block → List Block) (mkBlocks : List Block)
    (tic : ℕ) (tia : ℚ) :
    ∀ (fuel a : ℕ) (p : AttemptState),
      ∃ x, (attemptsLoop cfg sorter mkBlocks tic tia fuel a (some p)).2 =
        some x := by
  intro fuel
  induction fuel with
  | zero =>
    intro a p
    exact ⟨p, rfl⟩
  | succ fuel ih =>
    intro a p
    simp only [attemptsLoop]
    split_ifs
    · exact ⟨_, rfl⟩
    · exact ⟨_, rfl⟩
    · exact ih (a + 1) _

lemma attemptsLoop_some0 (cfg : OrchConfig)
    (sorter : ℕ → List Block → List Block) (mkBlocks : List Block)
    (tic : ℕ) (tia : ℚ) (fuel : ℕ) (hf : fuel ≠ 0) :
    ∃ x, (attemptsLoop cfg sorter mkBlocks tic tia fuel 0 none).2 = some x := by
  cases fuel with
  | zero => exact absurd rfl hf
  | succ fuel =>
    simp only [attemptsLoop]
    split_ifs
    · exact ⟨_, rfl⟩
    · exact ⟨_, rfl⟩
    · exact attemptsLoop_some cfg sorter mkBlocks tic tia fuel 1 _

lemma getMaxAttemptFuel_pos (n : ℕ) (hn : n ≠ 0) : getMaxAttemptFuel n ≠ 0 := by
  unfold getMaxAttemptFuel
  rw [if_neg hn, Nat.min_def]
  split_ifs <;> omega

unseal Rat.add Rat.sub Rat.mul in
/-- C8 counterexample: there is no zero-bins check anywhere in the run.
With zero bins, a nonempty item list and sorting in effect, the run does
not fail and it is not attempt-free: every attempt of the derived budget
(here `getMaxAttemptFuel 1 = 4`, indices 0-3) executes against the empty
bin list, and the run returns an ordinary success result carrying no
packed blocks and all items as remaining — refuting "fails immediately
with a descriptive error; no attempts are run". -/
theorem zero_bins_counterexample :
    packItems ⟨[], false, true, false, false⟩ (fun _ l => l) none
      [testBlock 0 5 5] =
      Except.ok ⟨[], [testBlock 0 5 5], [0, 1, 2, 3]⟩ := by
  rfl

/-- C8 (amended): when zero bins are supplied (and sorting is on, the
sorter permutes its input, and there is at least one item), the run does
not error: it executes the full derived attempt budget, and the winning
attempt packs nothing, leaving all items remaining
(`packItemsIllustrator`, main source lines 237-331; no bins check exists
at lines 192-217). -/
theorem zero_bins_no_error (cfg : OrchConfig)
    (sorter : ℕ → List Block → List Block) (items : List Block)
    (hbins : cfg.bins = []) (hds : cfg.doNotSort = false)
    (hsort : ∀ a l, (sorter a l).length = l.length) (hne : items ≠ []) :
    ∃ x : AttemptState,
      packItems cfg sorter none items =
        Except.ok ⟨x.packedBlocks, x.remainingBlocks,
          List.range (getMaxAttemptFuel items.length)⟩ ∧
      x.packedBlocks = [] ∧
      x.remainingBlocks.length = items.length := by
  have hlen : items.length ≠ 0 := fun h5 => hne (List.length_eq_zero.mp h5)
  have hfuel : getMaxAttemptFuel items.length ≠ 0 :=
    getMaxAttemptFuel_pos items.length hlen
  have hatt : ∀ a,
      (attemptAt cfg sorter items items.length
        ((items.map (fun b => b.w * b.h)).sum) a).packedBlocks = [] ∧
      (attemptAt cfg sorter items items.length
        ((items.map (fun b => b.w * b.h)).sum) a).remainingBlocks.length =
        items.length := by
    intro a
    unfold attemptAt
    rw [if_neg (by simp [hds]), hbins]
    refine ⟨(attemptRun_nil_bins _ _ _ _ _).1, ?_⟩
    rw [(attemptRun_nil_bins _ _ _ _ _).2]
    exact hsort a items
  obtain ⟨x, hx⟩ := attemptsLoop_some0 cfg sorter items items.length
    ((items.map (fun b => b.w * b.h)).sum) (getMaxAttemptFuel items.length) hfuel
  have hxP : x.packedBlocks = [] ∧ x.remainingBlocks.length = items.length := by
    refine attemptsLoop_best_pres cfg sorter items items.length
      ((items.map (fun b => b.w * b.h)).sum)
      (fun p => p.packedBlocks = [] ∧ p.remainingBlocks.length = items.length)
      hatt (getMaxAttemptFuel items.length) 0 none ?_ x hx
    intro y hy
    exact Option.noConfusion hy
  have htrace : (attemptsLoop cfg sorter items items.length
      ((items.map (fun b => b.w * b.h)).sum)
      (getMaxAttemptFuel items.length) 0 none).1 =
      List.range (getMaxAttemptFuel items.length) := by
    have hB : ∀ a, (bestAfter cfg sorter items items.length
        ((items.map (fun b => b.w * b.h)).sum) a).remainingBlocks.length =
        items.length :=
      bestAfter_pres cfg sorter items items.length
        ((items.map (fun b => b.w * b.h)).sum)
        (fun p => p.remainingBlocks.length = items.length) (fun a => (hatt a).2)
    have h := attemptsLoop_trace cfg sorter items items.length
      ((items.map (fun b => b.w * b.h)).sum) hds
      (getMaxAttemptFuel items.length) 0
    have h0 : bestState cfg sorter items items.length
        ((items.map (fun b => b.w * b.h)).sum) 0 = none := rfl
    rw [h0] at h
    cases hth : cfg.tryHarder
    · obtain ⟨L, h1, h2, h3, h4⟩ := h.2 hth
      have hL : L = getMaxAttemptFuel items.length := by
        by_contra hLne
        obtain ⟨j, hj1, hj2, hj3⟩ := h4 (lt_of_le_of_ne h2 hLne)
        have h5 := hB (0 + j)
        omega
      rw [hL] at h1
      rw [h1, ← List.range_eq_range']
    · rw [h.1 hth, ← List.range_eq_range']
  refine ⟨x, ?_, hxP.1, hxP.2⟩
  unfold packItems
  dsimp only
  rw [hx]
  dsimp only
  rw [htrace]

theorem zero_bins_no_error_witness :
    ((⟨[], false, true, false, false⟩ : OrchConfig).bins = [] ∧
     (⟨[], false, true, false, false⟩ : OrchConfig).doNotSort = false ∧
     (∀ a l, ((fun _ l => l : ℕ → List Block → List Block) a l).length =
       l.length) ∧
     [testBlock 0 5 5] ≠ []) ∧
    ∃ x : AttemptState,
      packItems ⟨[], false, true, false, false⟩ (fun _ l => l) none
        [testBlock 0 5 5] =
        Except.ok ⟨x.packedBlocks, x.remainingBlocks,
          List.range (getMaxAttemptFuel [testBlock 0 5 5].length)⟩ ∧
      x.packedBlocks = [] ∧
      x.remainingBlocks.length = [testBlock 0 5 5].length :=
  ⟨⟨rfl, rfl, fun _ _ => rfl, List.cons_ne_nil _ _⟩,
   zero_bins_no_error ⟨[], false, true, false, false⟩ (fun _ l => l)
     [testBlock 0 5 5] rfl rfl (fun _ _ => rfl) (List.cons_ne_nil _ _)⟩

/-- C9 counterexample: a run over zero items does raise an error instead
of returning an empty result.  `getMaxAttemptCount(0)` evaluates
`Math.log(0) = -Infinity`, so the attempt budget is `-Infinity`, the
attempts loop runs zero times, `bestAttempt` stays `undefined`, and
reading `bestAttempt.packedBlocks` (main source line 339) throws a
TypeError — refuting "immediate result with empty packed and empty
remaining lists". -/
theorem zero_items_counterexample :
    packItems ⟨[(10, 10)], false, true, false, false⟩ (fun _ l => l) none
      [] = Except.error "TypeError: bestAttempt is undefined" := by
  rfl

/-- C9 (amended): for every configuration and sorter, a run over zero
items with the derived attempt budget gets a budget of zero
(`getMaxAttemptCount(0) = -Infinity`, modelled as 0), executes zero
attempts, and then crashes with a TypeError when it dereferences the
never-assigned `bestAttempt` (main source lines 337-349 and 588-590);
it does not return an empty success result. -/
theorem zero_items_crash (cfg : OrchConfig)
    (sorter : ℕ → List Block → List Block) :
    getMaxAttemptFuel 0 = 0 ∧
    (attemptsLoop cfg sorter [] 0 0 0 0 none).1 = [] ∧
    packItems cfg sorter none [] =
      Except.error "TypeError: bestAttempt is undefined" :=
  ⟨rfl, rfl, rfl⟩

end BinPacking
